import Mathlib

/-!
# REDasm listing index: ordered container search and insertion

A shallow embedding of `redasm/disassembler/listing/listingdocument.h`:
the `ListingItem` key, `Listing::ListingComparator`, `Listing::insertionPoint`
(a call of `std::lower_bound`), `Listing::_adjustSearch`, `Listing::binarySearch`
and `Listing::indexOf`.

Conventions of the embedding.

* A container (`std::vector<ListingItemPtr>`) is a `List ListingItem`; an iterator
  is its integer offset from `begin()`, so `end()` is the length of the list and the
  iterator one before `begin()` is `-1`.
* Dereferencing an iterator is `readAt`; it succeeds exactly for offsets in
  `[0, size)`.  A dereference outside that range is undefined behaviour in the
  source; the run ends there with the outcome `SearchResult.invalidRead`, which
  records the offending offset.
* `address_t` and `u32` values are natural numbers; the one arithmetic operation
  on them, the `u32` subtraction converted to `int` in `_adjustSearch`, is
  performed modulo `2^32` and reinterpreted as a signed 32-bit value.  Iterator
  differences (`std::distance`, a `ptrdiff_t`) are integers; the `int` returned by
  `indexOf` is that difference narrowed to a signed 32-bit value.
* The two `while` loops are iterated with an explicit iteration budget;
  `none` means that the budget ran out.
-/

namespace REDasm

/-- The key of a listing entry: `address_t address; u32 type;`. -/
structure ListingItem where
  address : Nat
  type : Nat
deriving DecidableEq, Repr

namespace ListingItem

/-- Enumerator `Undefined = 0`. -/
def Undefined : Nat := 0
/-- Enumerator `SegmentItem`. -/
def SegmentItem : Nat := 1
/-- Enumerator `FunctionItem`. -/
def FunctionItem : Nat := 2
/-- Enumerator `PrologueItem`. -/
def PrologueItem : Nat := 3
/-- Enumerator `SymbolItem`. -/
def SymbolItem : Nat := 4
/-- Enumerator `InstructionItem`. -/
def InstructionItem : Nat := 5
/-- Enumerator `AllItems = static_cast<u32>(-1)`. -/
def AllItems : Nat := 4294967295

/-- Member `bool is(u32 t) const`. -/
def is (item : ListingItem) (t : Nat) : Bool := decide (item.type = t)

end ListingItem

namespace Listing

/-- The comparator `ListingComparator::operator()`: equal addresses are ordered by
type, different addresses by address. -/
def ListingComparator (t1 t2 : ListingItem) : Bool :=
  if t1.address = t2.address then decide (t1.type < t2.type)
  else decide (t1.address < t2.address)

/-- Dereference of the iterator at offset `it` from `begin()`. -/
def readAt (container : List ListingItem) (it : Int) : Option ListingItem :=
  if 0 ≤ it then container[it.toNat]? else none

/-- The loop of the standard library algorithm `std::lower_bound` over
`[first, first + len)`: while `len > 0`, compare the element at `first + len / 2` with
`val`; continue behind it when it is ordered before `val`, in front of it otherwise;
return `first`.  The middle element always lies inside the range, so the last branch
of the match is never taken. -/
def lowerBoundLoop (container : List ListingItem) (val : ListingItem) :
    Nat → Nat → Nat → Nat
  | 0, first, _ => first
  | fuel + 1, first, len =>
    if len = 0 then first
    else
      let half := len / 2
      let middle := first + half
      match container[middle]? with
      | some x =>
        if ListingComparator x val then
          lowerBoundLoop container val fuel (middle + 1) (len - half - 1)
        else
          lowerBoundLoop container val fuel first half
      | none => first

/-- The function `insertionPoint`:
`std::lower_bound(container->begin(), container->end(), val, ListingComparator<V>())`,
as the offset of the returned iterator. -/
def insertionPoint (container : List ListingItem) (val : ListingItem) : Nat :=
  lowerBoundLoop container val container.length 0 container.length

/-- The call `container->insert(pos, val)` of `std::vector`. -/
def insertAt (container : List ListingItem) (pos : Nat) (val : ListingItem) :
    List ListingItem :=
  container.take pos ++ val :: container.drop pos

/-- What a search hands back. -/
inductive SearchResult where
  /-- An iterator to the element at this offset. -/
  | found (pos : Nat)
  /-- The iterator `container->end()`. -/
  | notFound
  /-- The iterator at this offset, outside `[0, size)`, was dereferenced. -/
  | invalidRead (pos : Int)
deriving DecidableEq, Repr

/-- Conversion to `int`: the value modulo `2^32`, read as a signed 32-bit number.
It is applied to the `u32` difference in `_adjustSearch` and to the `ptrdiff_t`
returned through the `int` result of `indexOf`. -/
def toInt32 (x : Int) : Int :=
  if x % 4294967296 < 2147483648 then x % 4294967296 else x % 4294967296 - 4294967296

/-- The loop of `_adjustSearch`.  The loop condition dereferences `it` before the
body compares `it` with `container->end()`. -/
def adjustLoop (container : List ListingItem) (type : Nat) (offset : Int)
    (searchaddress : Nat) : Nat → Int → Option SearchResult
  | 0, _ => none
  | fuel + 1, it =>
    match readAt container it with
    | none => some (SearchResult.invalidRead it)
    | some x =>
      if searchaddress = x.address then
        if it = container.length then some SearchResult.notFound
        else if x.type = type then some (SearchResult.found it.toNat)
        else if offset < 0 ∧ it = 0 then some SearchResult.notFound
        else adjustLoop container type offset searchaddress fuel
          (if offset > 0 then it + 1 else it - 1)
      else some SearchResult.notFound

/-- The function `_adjustSearch`: from an element with the searched address, walk
towards the searched type. -/
def _adjustSearch (fuel : Nat) (container : List ListingItem) (it : Int) (type : Nat) :
    Option SearchResult :=
  match readAt container it with
  | none => some (SearchResult.invalidRead it)
  | some x =>
    adjustLoop container type (toInt32 ((type : Int) - (x.type : Int))) x.address fuel it

/-- The loop of `binarySearch` on the iterators `thebegin` and `theend`. -/
def bisect (container : List ListingItem) (address type : Nat) (scanFuel : Nat) :
    Nat → Int → Int → Option SearchResult
  | 0, _, _ => none
  | fuel + 1, thebegin, theend =>
    if thebegin ≤ theend then
      let range := theend - thebegin
      let themiddle := thebegin + range / 2
      match readAt container themiddle with
      | none => some (SearchResult.invalidRead themiddle)
      | some x =>
        if x.address = address then _adjustSearch scanFuel container themiddle type
        else if x.address > address then
          bisect container address type scanFuel fuel thebegin (themiddle - 1)
        else if x.address < address then
          bisect container address type scanFuel fuel (themiddle + 1) theend
        else bisect container address type scanFuel fuel thebegin theend
    else some SearchResult.notFound

/-- The function `binarySearch(container, address, type)` with `fuel` iterations
allowed to each loop. -/
def binarySearchFuel (fuel : Nat) (container : List ListingItem) (address type : Nat) :
    Option SearchResult :=
  if container.length = 0 then some SearchResult.notFound
  else bisect container address type fuel fuel 0 container.length

/-- The function `binarySearch(container, address, type)`. -/
def binarySearch (container : List ListingItem) (address type : Nat) :
    Option SearchResult :=
  binarySearchFuel (container.length + 2) container address type

/-- What `indexOf` hands back. -/
inductive IndexResult where
  /-- The returned `int`. -/
  | index (i : Int)
  /-- The iterator at this offset, outside `[0, size)`, was dereferenced. -/
  | invalidRead (pos : Int)
deriving DecidableEq, Repr

/-- The function `indexOf(container, item)`: `-1` for `end()`, otherwise
`std::distance(container->begin(), it)` returned as `int`, that is, narrowed to a
signed 32-bit value. -/
def indexOf (container : List ListingItem) (item : ListingItem) : Option IndexResult :=
  match binarySearch container item.address item.type with
  | none => none
  | some SearchResult.notFound => some (IndexResult.index (-1))
  | some (SearchResult.found pos) => some (IndexResult.index (toInt32 (pos : Int)))
  | some (SearchResult.invalidRead pos) => some (IndexResult.invalidRead pos)

/-- Strictly increasing under `ListingComparator`. -/
def StrictSorted (container : List ListingItem) : Prop :=
  container.Pairwise (fun x y => ListingComparator x y = true)

instance (container : List ListingItem) : Decidable (StrictSorted container) := by
  unfold StrictSorted; infer_instance

/-- One of the five kinds `SegmentItem` .. `InstructionItem`. -/
def IsKind (t : Nat) : Prop :=
  ListingItem.SegmentItem ≤ t ∧ t ≤ ListingItem.InstructionItem

instance (t : Nat) : Decidable (IsKind t) := by
  unfold IsKind; infer_instance


/-- A sorted sample container: `Segment`, `Function` and `Symbol` at `0x1000`, an
`Instruction` at `0x2000`. -/
def sampleListing : List ListingItem :=
  [⟨0x1000, ListingItem.SegmentItem⟩, ⟨0x1000, ListingItem.FunctionItem⟩,
   ⟨0x1000, ListingItem.SymbolItem⟩, ⟨0x2000, ListingItem.InstructionItem⟩]

/-- The container of `n` segment items at the addresses `0, 1, ..., n - 1`. -/
def segmentsUpTo (n : Nat) : List ListingItem :=
  (List.range n).map (fun a => ⟨a, ListingItem.SegmentItem⟩)

/-- The container `[Segment@0x1000]`. -/
def singleSegment : List ListingItem := [⟨0x1000, ListingItem.SegmentItem⟩]

/-- The container `[Segment@0x1000, Function@0x1000]`. -/
def segmentAndFunction : List ListingItem :=
  [⟨0x1000, ListingItem.SegmentItem⟩, ⟨0x1000, ListingItem.FunctionItem⟩]

/-! ## Facts about the comparator and sorted containers -/

theorem comparator_iff (x y : ListingItem) :
    ListingComparator x y = true ↔
      x.address < y.address ∨ (x.address = y.address ∧ x.type < y.type) := by
  unfold ListingComparator
  by_cases h : x.address = y.address
  · simp [h]
  · simp only [h, if_false, decide_eq_true_eq, false_and, or_false]

theorem readAt_natCast (xs : List ListingItem) (k : Nat) :
    readAt xs (k : Int) = xs[k]? := by
  simp [readAt]

theorem readAt_of_lt (xs : List ListingItem) (k : Nat) (h : k < xs.length) :
    readAt xs (k : Int) = some xs[k] := by
  rw [readAt_natCast, List.getElem?_eq_getElem h]

theorem sorted_getElem_lt {xs : List ListingItem} (hs : StrictSorted xs) {i j : Nat}
    (hi : i < xs.length) (hj : j < xs.length) (hij : i < j) :
    ListingComparator xs[i] xs[j] = true := by
  have h := List.pairwise_iff_getElem.mp hs
  exact h i j hi hj hij

theorem sorted_address_mono {xs : List ListingItem} (hs : StrictSorted xs) {i j : Nat}
    (hi : i < xs.length) (hj : j < xs.length) (hij : i ≤ j) :
    xs[i].address ≤ xs[j].address := by
  rcases Nat.eq_or_lt_of_le hij with h | h
  · subst h; exact le_refl _
  · have := (comparator_iff _ _).mp (sorted_getElem_lt hs hi hj h)
    omega

theorem sorted_key_injective {xs : List ListingItem} (hs : StrictSorted xs) {i j : Nat}
    (hi : i < xs.length) (hj : j < xs.length)
    (ha : xs[i].address = xs[j].address) (ht : xs[i].type = xs[j].type) : i = j := by
  rcases Nat.lt_trichotomy i j with h | h | h
  · have := (comparator_iff _ _).mp (sorted_getElem_lt hs hi hj h)
    omega
  · exact h
  · have := (comparator_iff _ _).mp (sorted_getElem_lt hs hj hi h)
    omega

theorem sorted_type_lt {xs : List ListingItem} (hs : StrictSorted xs) {i j : Nat}
    (hi : i < xs.length) (hj : j < xs.length) (hij : i < j)
    (ha : xs[i].address = xs[j].address) : xs[i].type < xs[j].type := by
  have := (comparator_iff _ _).mp (sorted_getElem_lt hs hi hj hij)
  omega

/-! ## The directional scan of `_adjustSearch` on a sorted container -/

theorem adjustLoop_step {xs : List ListingItem} (type : Nat) (offset : Int) (sa : Nat)
    (fuel k : Nat) (hk : k < xs.length) (ha : sa = xs[k].address) :
    adjustLoop xs type offset sa (fuel + 1) (k : Int) =
      if xs[k].type = type then some (SearchResult.found k)
      else if offset < 0 ∧ k = 0 then some SearchResult.notFound
      else adjustLoop xs type offset sa fuel (if offset > 0 then (k : Int) + 1 else (k : Int) - 1) := by
  have hne : ¬ ((k : Int) = (xs.length : Int)) := by omega
  have hk0 : ((k : Int) = 0) = (k = 0) := by simp
  rw [adjustLoop, readAt_of_lt xs k hk]
  simp only [ha, if_true, hne, if_false, Int.toNat_ofNat, hk0]

theorem adjustLoop_up {xs : List ListingItem} (hs : StrictSorted xs) {j : Nat}
    (hj : j < xs.length) (offset : Int) (hoff : 0 < offset) :
    ∀ (d k fuel : Nat), k + d = j → d < fuel → (hk : k < xs.length) →
      xs[k].address = xs[j].address →
      adjustLoop xs xs[j].type offset xs[j].address fuel (k : Int)
        = some (SearchResult.found j) := by
  intro d
  induction d with
  | zero =>
    intro k fuel hkd hf hk _
    have hkj : k = j := by omega
    subst hkj
    obtain ⟨f, rfl⟩ : ∃ f, fuel = f + 1 := ⟨fuel - 1, by omega⟩
    rw [adjustLoop_step _ _ _ _ _ hk rfl]
    simp
  | succ d ih =>
    intro k fuel hkd hf hk ha
    obtain ⟨f, rfl⟩ : ∃ f, fuel = f + 1 := ⟨fuel - 1, by omega⟩
    have hlt : k < j := by omega
    have hty : xs[k].type ≠ xs[j].type := by
      have := sorted_type_lt hs hk hj hlt ha
      omega
    have hk1 : k + 1 < xs.length := by omega
    have ha1 : xs[k + 1].address = xs[j].address := by
      have h1 := sorted_address_mono hs hk hk1 (Nat.le_succ k)
      have h2 := sorted_address_mono hs hk1 hj (by omega)
      omega
    rw [adjustLoop_step _ _ _ _ _ hk ha.symm]
    have hno : ¬ (offset < 0 ∧ k = 0) := by omega
    simp only [hty, if_false, hno, hoff, gt_iff_lt, if_true]
    have := ih (k + 1) f (by omega) (by omega) hk1 ha1
    simpa using this

theorem adjustLoop_down {xs : List ListingItem} (hs : StrictSorted xs) {j : Nat}
    (hj : j < xs.length) (offset : Int) (hoff : offset < 0) :
    ∀ (d k fuel : Nat), j + d = k → d < fuel → (hk : k < xs.length) →
      xs[k].address = xs[j].address →
      adjustLoop xs xs[j].type offset xs[j].address fuel (k : Int)
        = some (SearchResult.found j) := by
  intro d
  induction d with
  | zero =>
    intro k fuel hkd hf hk _
    have hkj : k = j := by omega
    subst hkj
    obtain ⟨f, rfl⟩ : ∃ f, fuel = f + 1 := ⟨fuel - 1, by omega⟩
    rw [adjustLoop_step _ _ _ _ _ hk rfl]
    simp
  | succ d ih =>
    intro k fuel hkd hf hk ha
    obtain ⟨f, rfl⟩ : ∃ f, fuel = f + 1 := ⟨fuel - 1, by omega⟩
    have hlt : j < k := by omega
    have hty : xs[k].type ≠ xs[j].type := by
      have := sorted_type_lt hs hj hk hlt ha.symm
      omega
    obtain ⟨k1, rfl⟩ : ∃ k1, k = k1 + 1 := ⟨k - 1, by omega⟩
    have hk1 : k1 < xs.length := by omega
    have ha1 : xs[k1].address = xs[j].address := by
      have h1 := sorted_address_mono hs hk1 hk (Nat.le_succ k1)
      have h2 := sorted_address_mono hs hj hk1 (by omega)
      omega
    rw [adjustLoop_step _ _ _ _ _ hk ha.symm]
    have hno : ¬ (offset < 0 ∧ k1 + 1 = 0) := by omega
    have hnp : ¬ (offset > 0) := by omega
    simp only [hty, if_false, hno, hnp]
    have := ih k1 f (by omega) (by omega) hk1 ha1
    simpa using this

theorem toInt32_sub_pos {a b : Nat} (ha : a < 2147483648) (hb : b < 2147483648)
    (h : b < a) : 0 < toInt32 ((a : Int) - (b : Int)) := by
  unfold toInt32
  split <;> omega

theorem toInt32_sub_neg {a b : Nat} (ha : a < 2147483648) (hb : b < 2147483648)
    (h : a < b) : toInt32 ((a : Int) - (b : Int)) < 0 := by
  unfold toInt32
  split <;> omega

theorem adjustSearch_found {xs : List ListingItem} (hs : StrictSorted xs) {m j : Nat}
    (hm : m < xs.length) (hj : j < xs.length)
    (ha : xs[m].address = xs[j].address)
    (hbm : xs[m].type < 2147483648) (hbj : xs[j].type < 2147483648)
    (fuel : Nat) (hf : xs.length < fuel) :
    _adjustSearch fuel xs (m : Int) xs[j].type = some (SearchResult.found j) := by
  rw [_adjustSearch, readAt_of_lt xs m hm]
  simp only
  rw [ha]
  rcases Nat.lt_trichotomy m j with h | h | h
  · have hty := sorted_type_lt hs hm hj h ha
    exact adjustLoop_up hs hj _ (toInt32_sub_pos hbj hbm hty) (j - m) m fuel
      (by omega) (by omega) hm ha
  · subst h
    obtain ⟨f, rfl⟩ : ∃ f, fuel = f + 1 := ⟨fuel - 1, by omega⟩
    rw [adjustLoop_step _ _ _ _ _ hm rfl]
    simp
  · have hty := sorted_type_lt hs hj hm h ha.symm
    exact adjustLoop_down hs hj _ (toInt32_sub_neg hbj hbm hty) (m - j) m fuel
      (by omega) (by omega) hm ha

/-! ## The bisection of `binarySearch` on a sorted container -/

theorem bisect_present {xs : List ListingItem} (hs : StrictSorted xs) {j : Nat}
    (hj : j < xs.length) (type sf : Nat) :
    ∀ (fuel : Nat) (b e : Int), 0 ≤ b → b ≤ j → (j : Int) ≤ e → e ≤ xs.length →
      e - b < fuel →
      ∃ m : Nat, ∃ hm : m < xs.length, xs[m].address = xs[j].address ∧
        bisect xs xs[j].address type sf fuel b e = _adjustSearch sf xs (m : Int) type := by
  intro fuel
  induction fuel with
  | zero => intro b e _ _ _ _ hf; omega
  | succ f ih =>
    intro b e hb hbj hje hen hf
    have hbe : b ≤ e := by omega
    obtain ⟨m, hmdef⟩ : ∃ m : Nat, (m : Int) = b + (e - b) / 2 :=
      ⟨(b + (e - b) / 2).toNat, by omega⟩
    have hm : m < xs.length := by omega
    rw [bisect]
    simp only [hbe, if_true, ← hmdef, readAt_of_lt xs m hm]
    by_cases h1 : xs[m].address = xs[j].address
    · exact ⟨m, hm, h1, by simp [h1]⟩
    · simp only [h1, if_false]
      by_cases h2 : xs[m].address > xs[j].address
      · simp only [h2, if_true]
        have hjm : j < m := by
          by_contra hc
          have := sorted_address_mono hs hm hj (by omega)
          omega
        exact ih b ((m : Int) - 1) hb hbj (by omega) (by omega) (by omega)
      · have h3 : xs[m].address < xs[j].address := by omega
        simp only [h2, if_false, h3, if_true]
        have hjm : m < j := by
          by_contra hc
          have := sorted_address_mono hs hj hm (by omega)
          omega
        exact ih ((m : Int) + 1) e (by omega) (by omega) hje hen (by omega)

theorem binarySearch_found {xs : List ListingItem} (hs : StrictSorted xs)
    (hb : ∀ x ∈ xs, x.type < 2147483648) {j : Nat} (hj : j < xs.length) :
    binarySearch xs xs[j].address xs[j].type = some (SearchResult.found j) := by
  have hne : xs.length ≠ 0 := by omega
  rw [binarySearch, binarySearchFuel, if_neg hne]
  obtain ⟨m, hm, ha, heq⟩ := bisect_present hs hj xs[j].type (xs.length + 2)
    (xs.length + 2) 0 xs.length (le_refl _) (by omega) (by omega) (le_refl _) (by omega)
  have heq2 : bisect xs xs[j].address xs[j].type (xs.length + 2) (xs.length + 2) 0
      (xs.length : Int) = _adjustSearch (xs.length + 2) xs (m : Int) xs[j].type := by
    simpa using heq
  rw [heq2]
  exact adjustSearch_found hs hm hj ha (hb _ (List.getElem_mem hm))
    (hb _ (List.getElem_mem hj)) (xs.length + 2) (by omega)

/-! ## `std::lower_bound` on a sorted container -/

theorem comparator_trans {x y z : ListingItem} (h1 : ListingComparator x y = true)
    (h2 : ListingComparator y z = true) : ListingComparator x z = true := by
  rw [comparator_iff] at *
  omega

theorem comparator_irrefl (x : ListingItem) : ListingComparator x x = false := by
  cases h : ListingComparator x x
  · rfl
  · rw [comparator_iff] at h
    omega

theorem lowerBoundLoop_spec {xs : List ListingItem} (hs : StrictSorted xs)
    (val : ListingItem) :
    ∀ (fuel first len : Nat), len ≤ fuel → first + len ≤ xs.length →
      (∀ (i : Nat) (hi : i < xs.length), i < first → ListingComparator xs[i] val = true) →
      (∀ (i : Nat) (hi : i < xs.length), first + len ≤ i →
        ListingComparator xs[i] val = false) →
      lowerBoundLoop xs val fuel first len ≤ xs.length ∧
      (∀ (i : Nat) (hi : i < xs.length), i < lowerBoundLoop xs val fuel first len →
        ListingComparator xs[i] val = true) ∧
      (∀ (i : Nat) (hi : i < xs.length), lowerBoundLoop xs val fuel first len ≤ i →
        ListingComparator xs[i] val = false) := by
  intro fuel
  induction fuel with
  | zero =>
    intro first len hlen hn hlo hhi
    have : len = 0 := by omega
    subst this
    simp only [lowerBoundLoop]
    exact ⟨by omega, hlo, fun i hi h => hhi i hi (by omega)⟩
  | succ f ih =>
    intro first len hlen hn hlo hhi
    rw [lowerBoundLoop]
    by_cases h0 : len = 0
    · subst h0
      simp only [if_true]
      exact ⟨by omega, hlo, fun i hi h => hhi i hi (by omega)⟩
    · simp only [h0, if_false]
      have hmid : first + len / 2 < xs.length := by omega
      rw [List.getElem?_eq_getElem hmid]
      simp only
      by_cases hc : ListingComparator xs[first + len / 2] val = true
      · simp only [hc, if_true]
        apply ih (first + len / 2 + 1) (len - len / 2 - 1) (by omega) (by omega)
        · intro i hi hlt
          rcases Nat.eq_or_lt_of_le (Nat.lt_succ_iff.mp hlt) with h | h
          · subst h; exact hc
          · exact comparator_trans (sorted_getElem_lt hs hi hmid h) hc
        · intro i hi hge
          exact hhi i hi (by omega)
      · simp only [hc]
        apply ih first (len / 2) (by omega) (by omega) hlo
        intro i hi hge
        rcases Nat.eq_or_lt_of_le hge with h | h
        · subst h; simpa using hc
        · cases hv : ListingComparator xs[i] val
          · rfl
          · exact absurd (comparator_trans (sorted_getElem_lt hs hmid hi h) hv) hc

theorem insertionPoint_spec {xs : List ListingItem} (hs : StrictSorted xs)
    (val : ListingItem) :
    insertionPoint xs val ≤ xs.length ∧
    (∀ (i : Nat) (hi : i < xs.length), i < insertionPoint xs val →
      ListingComparator xs[i] val = true) ∧
    (∀ (i : Nat) (hi : i < xs.length), insertionPoint xs val ≤ i →
      ListingComparator xs[i] val = false) := by
  unfold insertionPoint
  exact lowerBoundLoop_spec hs val xs.length 0 xs.length (le_refl _) (by omega)
    (fun i _ h => absurd h (Nat.not_lt_zero i)) (fun i hi h => by omega)

theorem strictSorted_iff_adjacent (xs : List ListingItem) :
    StrictSorted xs ↔ xs.Chain' (fun x y => ListingComparator x y = true) := by
  haveI : IsTrans ListingItem (fun x y => ListingComparator x y = true) :=
    ⟨fun _ _ _ h1 h2 => comparator_trans h1 h2⟩
  exact List.chain'_iff_pairwise.symm

/-! ## Insertion at the insertion point -/

theorem comparator_of_not {x y : ListingItem} (h : ListingComparator x y = false)
    (hne : ¬ (x.address = y.address ∧ x.type = y.type)) :
    ListingComparator y x = true := by
  have h1 : ¬ (ListingComparator x y = true) := by simp [h]
  rw [comparator_iff] at h1
  rw [comparator_iff]
  omega

theorem insertAt_length (xs : List ListingItem) (p : Nat) (val : ListingItem)
    (hp : p ≤ xs.length) : (insertAt xs p val).length = xs.length + 1 := by
  simp only [insertAt, List.length_append, List.length_cons, List.length_take,
    List.length_drop]
  omega

theorem insertAt_getElem?_self (xs : List ListingItem) (p : Nat) (val : ListingItem)
    (hp : p ≤ xs.length) : (insertAt xs p val)[p]? = some val := by
  have hlen : (xs.take p).length = p := by simp [hp]
  unfold insertAt
  rw [List.getElem?_append_right (by omega), hlen]
  simp

theorem insertAt_eraseIdx (xs : List ListingItem) (p : Nat) (val : ListingItem)
    (hp : p ≤ xs.length) : (insertAt xs p val).eraseIdx p = xs := by
  have hlen : (xs.take p).length = p := by simp [hp]
  unfold insertAt
  rw [List.eraseIdx_append_of_length_le (by omega), hlen]
  simp

theorem insertAt_sorted {xs : List ListingItem} (hs : StrictSorted xs)
    (val : ListingItem)
    (habs : ∀ x ∈ xs, ¬ (x.address = val.address ∧ x.type = val.type)) :
    StrictSorted (insertAt xs (insertionPoint xs val) val) := by
  obtain ⟨_, hlo, hhi⟩ := insertionPoint_spec hs val
  have hsplit : StrictSorted (xs.take (insertionPoint xs val) ++
      xs.drop (insertionPoint xs val)) := by
    rw [List.take_append_drop]; exact hs
  unfold StrictSorted at hsplit
  rw [List.pairwise_append] at hsplit
  obtain ⟨htake, hdrop, hcross⟩ := hsplit
  unfold StrictSorted insertAt
  rw [List.pairwise_append, List.pairwise_cons]
  refine ⟨htake, ⟨?_, hdrop⟩, ?_⟩
  · intro b hb
    obtain ⟨i, hi, rfl⟩ := List.mem_drop_iff_getElem.mp hb
    have hi2 : insertionPoint xs val + i < xs.length := by omega
    exact comparator_of_not (hhi _ hi2 (by omega)) (habs _ (List.getElem_mem hi2))
  · intro a ha b hb
    rcases List.mem_cons.mp hb with h | h
    · subst h
      obtain ⟨i, hi, rfl⟩ := List.mem_take_iff_getElem.mp ha
      exact hlo i (by omega) (by omega)
    · exact hcross a ha b h

theorem insertionPoint_of_mem {xs : List ListingItem} (hs : StrictSorted xs)
    {j : Nat} (hj : j < xs.length) (val : ListingItem)
    (ha : val.address = xs[j].address) (ht : val.type = xs[j].type) :
    insertionPoint xs val = j := by
  obtain ⟨_, hlo, hhi⟩ := insertionPoint_spec hs val
  have hval : val = xs[j] := by
    cases val; cases hx : xs[j]; simp_all
  rcases Nat.lt_trichotomy (insertionPoint xs val) j with h | h | h
  · have h1 := hhi (insertionPoint xs val) (by omega) (le_refl _)
    have h2 := sorted_getElem_lt hs (by omega) hj h
    rw [← hval] at h2
    rw [h1] at h2
    exact absurd h2 (by simp)
  · exact h
  · have h1 := hlo j hj h
    rw [← hval, comparator_irrefl] at h1
    exact absurd h1 (by simp)

/-! ## Termination: the iteration budget is never exhausted -/

theorem adjustLoop_mono (xs : List ListingItem) (type : Nat) (offset : Int) (sa : Nat)
    (r : SearchResult) :
    ∀ (fuel fuel2 : Nat) (it : Int), fuel ≤ fuel2 →
      adjustLoop xs type offset sa fuel it = some r →
      adjustLoop xs type offset sa fuel2 it = some r := by
  intro fuel
  induction fuel with
  | zero => intro fuel2 it _ h; simp [adjustLoop] at h
  | succ f ih =>
    intro fuel2 it hle h
    obtain ⟨g, rfl⟩ : ∃ g, fuel2 = g + 1 := ⟨fuel2 - 1, by omega⟩
    rw [adjustLoop] at h ⊢
    cases hr : readAt xs it with
    | none => rw [hr] at h; exact h
    | some x =>
      rw [hr] at h
      simp only at h ⊢
      split
      · rename_i h1
        rw [if_pos h1] at h
        split
        · rename_i h2; rw [if_pos h2] at h; exact h
        · rename_i h2
          rw [if_neg h2] at h
          split
          · rename_i h3; rw [if_pos h3] at h; exact h
          · rename_i h3
            rw [if_neg h3] at h
            split
            · rename_i h4; rw [if_pos h4] at h; exact h
            · rename_i h4
              rw [if_neg h4] at h
              exact ih g _ (by omega) h
      · rename_i h1; rw [if_neg h1] at h; exact h

theorem adjustLoop_total (xs : List ListingItem) (type : Nat) (offset : Int) (sa : Nat) :
    ∀ (fuel : Nat) (it : Int), 0 < fuel →
      (if 0 < offset then (xs.length : Int) - it < fuel else it + 1 < fuel) →
      ∃ r, adjustLoop xs type offset sa fuel it = some r := by
  intro fuel
  induction fuel with
  | zero => intro it h; omega
  | succ f ih =>
    intro it _ hm
    rw [adjustLoop]
    cases hr : readAt xs it with
    | none => exact ⟨_, rfl⟩
    | some x =>
      have hrange : 0 ≤ it ∧ it < xs.length := by
        unfold readAt at hr
        split at hr
        · rename_i h0
          have := (List.getElem?_eq_some_iff.mp hr).1
          omega
        · simp at hr
      simp only
      split
      · split
        · exact ⟨_, rfl⟩
        · split
          · exact ⟨_, rfl⟩
          · split
            · exact ⟨_, rfl⟩
            · by_cases hpos : 0 < offset
              · simp only [hpos, if_true, gt_iff_lt] at hm ⊢
                apply ih _ (by omega)
                simp only [hpos, if_true]
                omega
              · simp only [hpos, if_false, gt_iff_lt] at hm ⊢
                apply ih _ (by omega)
                simp only [hpos, if_false]
                omega
      · exact ⟨_, rfl⟩

theorem readAt_some_range {xs : List ListingItem} {it : Int} {x : ListingItem}
    (h : readAt xs it = some x) : 0 ≤ it ∧ it < xs.length := by
  unfold readAt at h
  split at h
  · have := (List.getElem?_eq_some_iff.mp h).1
    omega
  · simp at h

theorem adjustSearch_mono (xs : List ListingItem) (type : Nat) (it : Int)
    (r : SearchResult) (fuel fuel2 : Nat) (hle : fuel ≤ fuel2)
    (h : _adjustSearch fuel xs it type = some r) :
    _adjustSearch fuel2 xs it type = some r := by
  unfold _adjustSearch at h ⊢
  cases hr : readAt xs it with
  | none => rw [hr] at h; exact h
  | some x =>
    rw [hr] at h
    exact adjustLoop_mono xs type _ _ r fuel fuel2 it hle h

theorem adjustSearch_total (xs : List ListingItem) (type : Nat) (it : Int)
    (fuel : Nat) (hf : xs.length + 2 ≤ fuel) :
    ∃ r, _adjustSearch fuel xs it type = some r := by
  unfold _adjustSearch
  cases hr : readAt xs it with
  | none => exact ⟨_, rfl⟩
  | some x =>
    have := readAt_some_range hr
    apply adjustLoop_total xs type _ _ fuel it (by omega)
    split <;> omega

theorem bisect_mono (xs : List ListingItem) (address type : Nat) (r : SearchResult)
    (sf sf2 : Nat) (hsf : sf ≤ sf2) :
    ∀ (fuel fuel2 : Nat) (b e : Int), fuel ≤ fuel2 →
      bisect xs address type sf fuel b e = some r →
      bisect xs address type sf2 fuel2 b e = some r := by
  intro fuel
  induction fuel with
  | zero => intro fuel2 b e _ h; simp [bisect] at h
  | succ f ih =>
    intro fuel2 b e hle h
    obtain ⟨g, rfl⟩ : ∃ g, fuel2 = g + 1 := ⟨fuel2 - 1, by omega⟩
    rw [bisect] at h ⊢
    split
    · rename_i h1
      rw [if_pos h1] at h
      simp only at h ⊢
      cases hr : readAt xs (b + (e - b) / 2) with
      | none => rw [hr] at h; exact h
      | some x =>
        rw [hr] at h
        simp only at h ⊢
        split
        · rename_i h2
          rw [if_pos h2] at h
          exact adjustSearch_mono xs type _ r sf sf2 hsf h
        · rename_i h2
          rw [if_neg h2] at h
          split
          · rename_i h3; rw [if_pos h3] at h; exact ih g _ _ (by omega) h
          · rename_i h3
            rw [if_neg h3] at h
            split
            · rename_i h4; rw [if_pos h4] at h; exact ih g _ _ (by omega) h
            · rename_i h4; rw [if_neg h4] at h; exact ih g _ _ (by omega) h
    · rename_i h1; rw [if_neg h1] at h; exact h

theorem bisect_total (xs : List ListingItem) (address type : Nat) (sf : Nat)
    (hsf : xs.length + 2 ≤ sf) :
    ∀ (fuel : Nat) (b e : Int), 0 < fuel → e - b + 1 < fuel →
      ∃ r, bisect xs address type sf fuel b e = some r := by
  intro fuel
  induction fuel with
  | zero => intro b e h; omega
  | succ f ih =>
    intro b e _ hm
    rw [bisect]
    split
    · rename_i h1
      simp only
      cases hr : readAt xs (b + (e - b) / 2) with
      | none => exact ⟨_, rfl⟩
      | some x =>
        simp only
        split
        · exact adjustSearch_total xs type _ sf hsf
        · split
          · exact ih _ _ (by omega) (by omega)
          · split
            · exact ih _ _ (by omega) (by omega)
            · omega
    · exact ⟨_, rfl⟩

theorem binarySearchFuel_stable (xs : List ListingItem) (address type : Nat) :
    ∃ r, ∀ fuel, xs.length + 2 ≤ fuel →
      binarySearchFuel fuel xs address type = some r := by
  by_cases h0 : xs.length = 0
  · exact ⟨SearchResult.notFound, fun fuel _ => by simp [binarySearchFuel, h0]⟩
  · obtain ⟨r, hr⟩ := bisect_total xs address type (xs.length + 2) (le_refl _)
      (xs.length + 2) 0 xs.length (by omega) (by omega)
    refine ⟨r, fun fuel hf => ?_⟩
    rw [binarySearchFuel, if_neg h0]
    exact bisect_mono xs address type r _ _ hf _ _ _ _ hf hr

/-! ## Reads of `end()` -/

theorem bisect_above (xs : List ListingItem) (address type sf : Nat)
    (habove : ∀ x ∈ xs, x.address < address) :
    ∀ (fuel : Nat) (b : Int), 0 ≤ b → b ≤ xs.length → (xs.length : Int) - b < fuel →
      bisect xs address type sf fuel b xs.length
        = some (SearchResult.invalidRead xs.length) := by
  intro fuel
  induction fuel with
  | zero => intro b _ _ h; omega
  | succ f ih =>
    intro b hb hbn hf
    rw [bisect, if_pos hbn]
    simp only
    by_cases hend : b = xs.length
    · subst hend
      have hmid : (xs.length : Int) + ((xs.length : Int) - xs.length) / 2 = xs.length := by
        omega
      rw [hmid, readAt_natCast, List.getElem?_eq_none (le_refl _)]
    · obtain ⟨m, hmdef⟩ : ∃ m : Nat, (m : Int) = b + ((xs.length : Int) - b) / 2 :=
        ⟨(b + ((xs.length : Int) - b) / 2).toNat, by omega⟩
      have hm : m < xs.length := by omega
      have hlt := habove xs[m] (List.getElem_mem hm)
      have h1 : ¬ (xs[m].address = address) := by omega
      have h2 : ¬ (xs[m].address > address) := by omega
      rw [← hmdef, readAt_of_lt xs m hm]
      simp only [h1, h2, hlt, if_false, if_true]
      exact ih _ (by omega) (by omega) (by omega)

theorem binarySearch_above (xs : List ListingItem) (hne : xs ≠ []) (address type : Nat)
    (habove : ∀ x ∈ xs, x.address < address) :
    binarySearch xs address type = some (SearchResult.invalidRead xs.length) := by
  have h0 : xs.length ≠ 0 := by
    intro h; exact hne (List.length_eq_zero.mp h)
  rw [binarySearch, binarySearchFuel, if_neg h0]
  have := bisect_above xs address type (xs.length + 2) habove (xs.length + 2) 0
    (le_refl _) (by omega) (by omega)
  simpa using this

theorem adjustLoop_run_to_end (xs : List ListingItem) (type : Nat) (offset : Int)
    (hoff : 0 < offset) (sa : Nat) :
    ∀ (d k fuel : Nat), k + d = xs.length → d < fuel →
      (∀ (i : Nat) (hi : i < xs.length), k ≤ i → xs[i].address = sa ∧ xs[i].type ≠ type) →
      adjustLoop xs type offset sa fuel (k : Int)
        = some (SearchResult.invalidRead xs.length) := by
  intro d
  induction d with
  | zero =>
    intro k fuel hkd hf _
    obtain ⟨f, rfl⟩ : ∃ f, fuel = f + 1 := ⟨fuel - 1, by omega⟩
    have hkn : k = xs.length := by omega
    rw [adjustLoop, readAt_natCast, List.getElem?_eq_none (by omega), hkn]
  | succ d ih =>
    intro k fuel hkd hf hrun
    obtain ⟨f, rfl⟩ : ∃ f, fuel = f + 1 := ⟨fuel - 1, by omega⟩
    have hk : k < xs.length := by omega
    obtain ⟨ha, hty⟩ := hrun k hk (le_refl _)
    rw [adjustLoop_step _ _ _ _ _ hk ha.symm]
    have hno : ¬ (offset < 0 ∧ k = 0) := by omega
    simp only [hty, if_false, hno, hoff, gt_iff_lt, if_true]
    have := ih (k + 1) f (by omega) (by omega) (fun i hi hle => hrun i hi (by omega))
    simpa using this

theorem binarySearch_run_to_end {xs : List ListingItem} (hs : StrictSorted xs)
    (hb : ∀ x ∈ xs, x.type < 2147483648) {j : Nat} (hj : j < xs.length)
    (type : Nat) (ht : type < 2147483648)
    (hmax : ∀ x ∈ xs, x.address ≤ xs[j].address)
    (hgt : ∀ x ∈ xs, x.address = xs[j].address → x.type < type) :
    binarySearch xs xs[j].address type = some (SearchResult.invalidRead xs.length) := by
  have hne : xs.length ≠ 0 := by omega
  rw [binarySearch, binarySearchFuel, if_neg hne]
  obtain ⟨m, hm, ha, heq⟩ := bisect_present hs hj type (xs.length + 2)
    (xs.length + 2) 0 xs.length (le_refl _) (by omega) (by omega) (le_refl _) (by omega)
  have heq2 : bisect xs xs[j].address type (xs.length + 2) (xs.length + 2) 0
      (xs.length : Int) = _adjustSearch (xs.length + 2) xs (m : Int) type := by
    simpa using heq
  rw [heq2, _adjustSearch, readAt_of_lt xs m hm]
  simp only
  have hmt := hgt xs[m] (List.getElem_mem hm) ha
  have hmb := hb xs[m] (List.getElem_mem hm)
  apply adjustLoop_run_to_end xs type _ (toInt32_sub_pos ht hmb hmt) _
    (xs.length - m) m (xs.length + 2) (by omega) (by omega)
  intro i hi hle
  have h1 := sorted_address_mono hs hm hi hle
  have h2 := hmax xs[i] (List.getElem_mem hi)
  have hai : xs[i].address = xs[m].address := by omega
  have h3 := hgt xs[i] (List.getElem_mem hi) (by omega)
  exact ⟨hai, by omega⟩

/-! ## Where the search does return `end()` -/

theorem bisect_absent {xs : List ListingItem} (hs : StrictSorted xs) (address type sf : Nat)
    (habs : ∀ x ∈ xs, x.address ≠ address) {u : Nat} (hu : u < xs.length)
    (hgt : address < xs[u].address) :
    ∀ (fuel : Nat) (b e : Int), 0 < fuel → 0 ≤ b → e ≤ xs.length → b ≤ u →
      e - b + 1 < fuel →
      (∀ (i : Nat) (hi : i < xs.length), (i : Int) < b → xs[i].address < address) →
      (∀ (i : Nat) (hi : i < xs.length), e < (i : Int) → address < xs[i].address) →
      bisect xs address type sf fuel b e = some SearchResult.notFound := by
  intro fuel
  induction fuel with
  | zero => intro b e h; omega
  | succ f ih =>
    intro b e _ hb hen hbu hf hlo hhi
    rw [bisect]
    by_cases hbe : b ≤ e
    · obtain ⟨m, hmdef⟩ : ∃ m : Nat, (m : Int) = b + (e - b) / 2 :=
        ⟨(b + (e - b) / 2).toNat, by omega⟩
      have hm : m < xs.length := by omega
      have hne := habs xs[m] (List.getElem_mem hm)
      simp only [hbe, if_true, ← hmdef, readAt_of_lt xs m hm, hne, if_false]
      by_cases h2 : xs[m].address > address
      · simp only [h2, if_true]
        apply ih b ((m : Int) - 1) (by omega) hb (by omega) hbu (by omega) hlo
        intro i hi hlt
        have := sorted_address_mono hs hm hi (by omega)
        omega
      · have h3 : xs[m].address < address := by omega
        simp only [h2, if_false, h3, if_true]
        have hmu : m < u := by
          by_contra hc
          have := sorted_address_mono hs hu hm (by omega)
          omega
        apply ih ((m : Int) + 1) e (by omega) (by omega) hen (by omega) (by omega) _ hhi
        intro i hi hlt
        have := sorted_address_mono hs hi hm (by omega)
        omega
    · simp only [hbe, if_false]

theorem binarySearch_absent_address {xs : List ListingItem} (hs : StrictSorted xs)
    (address type : Nat) (habs : ∀ x ∈ xs, x.address ≠ address)
    (hgt : xs = [] ∨ ∃ x ∈ xs, address < x.address) :
    binarySearch xs address type = some SearchResult.notFound := by
  rw [binarySearch, binarySearchFuel]
  by_cases h0 : xs.length = 0
  · rw [if_pos h0]
  · rw [if_neg h0]
    rcases hgt with h | ⟨x, hx, hlt⟩
    · subst h; simp at h0
    · obtain ⟨u, hu, rfl⟩ := List.mem_iff_getElem.mp hx
      have := bisect_absent hs address type (xs.length + 2) habs hu hlt
        (xs.length + 2) 0 xs.length (by omega) (le_refl _) (le_refl _) (by omega)
        (by omega) (fun i _ h => by omega) (fun i hi h => by omega)
      simpa using this

theorem adjustLoop_up_absent (xs : List ListingItem) (type : Nat) (offset : Int)
    (hoff : 0 < offset) (sa : Nat)
    (habs : ∀ x ∈ xs, ¬ (x.address = sa ∧ x.type = type)) {u : Nat} (hu : u < xs.length)
    (hne : xs[u].address ≠ sa) :
    ∀ (d k fuel : Nat), k + d = u → d < fuel →
      adjustLoop xs type offset sa fuel (k : Int) = some SearchResult.notFound := by
  intro d
  induction d with
  | zero =>
    intro k fuel hkd hf
    obtain ⟨f, rfl⟩ : ∃ f, fuel = f + 1 := ⟨fuel - 1, by omega⟩
    have hku : k = u := by omega
    subst hku
    rw [adjustLoop, readAt_of_lt xs k hu]
    simp only [Ne.symm hne, if_false]
  | succ d ih =>
    intro k fuel hkd hf
    obtain ⟨f, rfl⟩ : ∃ f, fuel = f + 1 := ⟨fuel - 1, by omega⟩
    have hk : k < xs.length := by omega
    by_cases ha : sa = xs[k].address
    · rw [adjustLoop_step _ _ _ _ _ hk ha]
      have hty : ¬ (xs[k].type = type) := fun h =>
        habs xs[k] (List.getElem_mem hk) ⟨ha.symm, h⟩
      have hno : ¬ (offset < 0 ∧ k = 0) := by omega
      simp only [hty, if_false, hno, hoff, gt_iff_lt, if_true]
      have := ih (k + 1) f (by omega) (by omega)
      simpa using this
    · rw [adjustLoop, readAt_of_lt xs k hk]
      simp only [ha, if_false]

theorem adjustLoop_down_absent (xs : List ListingItem) (type : Nat) (offset : Int)
    (hoff : offset < 0) (sa : Nat)
    (habs : ∀ x ∈ xs, ¬ (x.address = sa ∧ x.type = type)) :
    ∀ (k fuel : Nat), k < fuel → k < xs.length →
      adjustLoop xs type offset sa fuel (k : Int) = some SearchResult.notFound := by
  intro k
  induction k with
  | zero =>
    intro fuel hf hk
    obtain ⟨f, rfl⟩ : ∃ f, fuel = f + 1 := ⟨fuel - 1, by omega⟩
    by_cases ha : sa = xs[0].address
    · have hstep := adjustLoop_step type offset sa f 0 hk ha
      have hty : ¬ (xs[0].type = type) := fun h =>
        habs xs[0] (List.getElem_mem hk) ⟨ha.symm, h⟩
      simp only [hty, if_false, hoff, and_self, if_true] at hstep
      exact hstep
    · have hr := readAt_of_lt xs 0 hk
      rw [adjustLoop, hr]
      simp only [ha, if_false]
  | succ k ih =>
    intro fuel hf hk
    obtain ⟨f, rfl⟩ : ∃ f, fuel = f + 1 := ⟨fuel - 1, by omega⟩
    by_cases ha : sa = xs[k + 1].address
    · rw [adjustLoop_step _ _ _ _ _ hk ha]
      have hty : ¬ (xs[k + 1].type = type) := fun h =>
        habs xs[k + 1] (List.getElem_mem hk) ⟨ha.symm, h⟩
      have hno : ¬ (offset < 0 ∧ k + 1 = 0) := by omega
      have hnp : ¬ (offset > 0) := by omega
      simp only [hty, if_false, hno, hnp]
      have := ih f (by omega) (by omega)
      simpa using this
    · rw [adjustLoop, readAt_of_lt xs (k + 1) hk]
      simp only [ha, if_false]

theorem toInt32_sub_ne_zero {a b : Nat} (ha : a < 4294967296) (hb : b < 4294967296)
    (h : a ≠ b) : toInt32 ((a : Int) - (b : Int)) ≠ 0 := by
  unfold toInt32
  split <;> omega

theorem binarySearch_absent_kind {xs : List ListingItem} (hs : StrictSorted xs)
    (hb : ∀ x ∈ xs, x.type < 4294967296) {j : Nat} (hj : j < xs.length)
    (type : Nat) (ht : type < 4294967296)
    (habs : ∀ x ∈ xs, ¬ (x.address = xs[j].address ∧ x.type = type))
    (hnext : ∃ x ∈ xs, xs[j].address < x.address) :
    binarySearch xs xs[j].address type = some SearchResult.notFound := by
  have hne : xs.length ≠ 0 := by omega
  rw [binarySearch, binarySearchFuel, if_neg hne]
  obtain ⟨m, hm, ha, heq⟩ := bisect_present hs hj type (xs.length + 2)
    (xs.length + 2) 0 xs.length (le_refl _) (by omega) (by omega) (le_refl _) (by omega)
  have heq2 : bisect xs xs[j].address type (xs.length + 2) (xs.length + 2) 0
      (xs.length : Int) = _adjustSearch (xs.length + 2) xs (m : Int) type := by
    simpa using heq
  rw [heq2, _adjustSearch, readAt_of_lt xs m hm]
  simp only
  have hty : type ≠ xs[m].type := fun h => habs xs[m] (List.getElem_mem hm) ⟨ha, h.symm⟩
  have hoff := toInt32_sub_ne_zero ht (hb xs[m] (List.getElem_mem hm)) hty
  have habs2 : ∀ x ∈ xs, ¬ (x.address = xs[m].address ∧ x.type = type) := by
    rw [ha]; exact habs
  rcases lt_or_gt_of_ne hoff with hneg | hpos
  · exact adjustLoop_down_absent xs type _ hneg _ habs2 m (xs.length + 2) (by omega) hm
  · obtain ⟨x, hx, hlt⟩ := hnext
    obtain ⟨u, hu, rfl⟩ := List.mem_iff_getElem.mp hx
    have hmu : m < u := by
      by_contra hc
      have := sorted_address_mono hs hu hm (by omega)
      omega
    exact adjustLoop_up_absent xs type _ hpos _ habs2 hu (by omega) (u - m) m
      (xs.length + 2) (by omega) (by omega)

/-! ## The only offset ever dereferenced outside the container is `end()` -/

theorem readAt_none_of_range {xs : List ListingItem} {it : Int} (h0 : 0 ≤ it)
    (hn : it ≤ xs.length) (h : readAt xs it = none) : it = xs.length := by
  unfold readAt at h
  rw [if_pos h0] at h
  have := List.getElem?_eq_none_iff.mp h
  omega

theorem adjustLoop_invalid_pos (xs : List ListingItem) (type : Nat) (offset : Int)
    (sa : Nat) (p : Int) :
    ∀ (fuel : Nat) (it : Int), 0 ≤ it → it ≤ xs.length →
      (offset = 0 → ∀ x, readAt xs it = some x → x.type = type) →
      adjustLoop xs type offset sa fuel it = some (SearchResult.invalidRead p) →
      p = xs.length := by
  intro fuel
  induction fuel with
  | zero => intro it _ _ _ h; simp [adjustLoop] at h
  | succ f ih =>
    intro it h0 hn hz h
    rw [adjustLoop] at h
    cases hr : readAt xs it with
    | none =>
      rw [hr] at h
      have hp : it = p := by simpa using h
      rw [← hp]
      exact readAt_none_of_range h0 hn hr
    | some x =>
      rw [hr] at h
      have hrange := readAt_some_range hr
      simp only at h
      split at h
      · split at h
        · simp at h
        · split at h
          · simp at h
          · rename_i hty
            split at h
            · simp at h
            · rename_i hbreak
              have hoff : offset ≠ 0 := fun h0 => hty (hz h0 x hr)
              by_cases hpos : 0 < offset
              · simp only [hpos, gt_iff_lt, if_true] at h
                exact ih _ (by omega) (by omega) (fun h0 => absurd h0 hoff) h
              · simp only [hpos, gt_iff_lt, if_false] at h
                have hneg : offset < 0 := by omega
                have hit : it ≠ 0 := fun h0 => hbreak ⟨hneg, h0⟩
                exact ih _ (by omega) (by omega) (fun h0 => absurd h0 hoff) h
      · simp at h

theorem bisect_invalid_pos (xs : List ListingItem) (hb : ∀ x ∈ xs, x.type < 4294967296)
    (address type : Nat) (ht : type < 4294967296) (sf : Nat) (p : Int) :
    ∀ (fuel : Nat) (b e : Int), 0 ≤ b → e ≤ xs.length →
      bisect xs address type sf fuel b e = some (SearchResult.invalidRead p) →
      p = xs.length := by
  intro fuel
  induction fuel with
  | zero => intro b e _ _ h; simp [bisect] at h
  | succ f ih =>
    intro b e h0 hn h
    rw [bisect] at h
    split at h
    · rename_i hbe
      simp only at h
      have hm0 : 0 ≤ b + (e - b) / 2 := by omega
      have hmn : b + (e - b) / 2 ≤ xs.length := by omega
      cases hr : readAt xs (b + (e - b) / 2) with
      | none =>
        rw [hr] at h
        have hp : b + (e - b) / 2 = p := by simpa using h
        rw [← hp]
        exact readAt_none_of_range hm0 hmn hr
      | some x =>
        rw [hr] at h
        simp only at h
        have hmem : x ∈ xs := by
          unfold readAt at hr
          rw [if_pos hm0] at hr
          exact List.getElem?_mem hr
        split at h
        · rw [_adjustSearch, hr] at h
          simp only at h
          refine adjustLoop_invalid_pos xs type _ _ p sf _ hm0 hmn ?_ h
          intro hz y hy
          rw [hr] at hy
          have hxy : x = y := Option.some.inj hy
          subst hxy
          by_contra hne
          exact toInt32_sub_ne_zero ht (hb x hmem) (fun h => hne h.symm) hz
        · split at h
          · exact ih _ _ h0 (by omega) h
          · split at h
            · exact ih _ _ (by omega) hn h
            · exact ih _ _ h0 hn h
    · simp at h

theorem binarySearch_invalid_pos (xs : List ListingItem)
    (hb : ∀ x ∈ xs, x.type < 4294967296) (address type : Nat) (ht : type < 4294967296)
    (p : Int) (h : binarySearch xs address type = some (SearchResult.invalidRead p)) :
    p = xs.length := by
  rw [binarySearch, binarySearchFuel] at h
  split at h
  · simp at h
  · exact bisect_invalid_pos xs hb address type ht _ p _ 0 xs.length (le_refl _)
      (le_refl _) h

/-! ## The `int` returned by `indexOf` -/

theorem toInt32_of_lt {j : Nat} (h : j < 2147483648) : toInt32 (j : Int) = (j : Int) := by
  unfold toInt32
  split <;> omega

theorem binarySearch_found_of_getElem? {xs : List ListingItem} (hs : StrictSorted xs)
    (hb : ∀ x ∈ xs, x.type < 2147483648) {j : Nat} {val : ListingItem}
    (hv : xs[j]? = some val) :
    binarySearch xs val.address val.type = some (SearchResult.found j) := by
  obtain ⟨hj, rfl⟩ := List.getElem?_eq_some_iff.mp hv
  exact binarySearch_found hs hb hj

theorem segmentsUpTo_sorted (n : Nat) : StrictSorted (segmentsUpTo n) := by
  unfold StrictSorted segmentsUpTo
  rw [List.pairwise_map]
  refine (List.pairwise_lt_range n).imp ?_
  intro a b hab
  rw [comparator_iff]
  exact Or.inl hab

theorem segmentsUpTo_kinds (n : Nat) : ∀ x ∈ segmentsUpTo n, IsKind x.type := by
  intro x hx
  unfold segmentsUpTo at hx
  obtain ⟨a, _, rfl⟩ := List.mem_map.mp hx
  exact (by decide : IsKind ListingItem.SegmentItem)

theorem segmentsUpTo_getElem? (n j : Nat) (h : j < n) :
    (segmentsUpTo n)[j]? = some ⟨j, ListingItem.SegmentItem⟩ := by
  unfold segmentsUpTo
  rw [List.getElem?_map, List.getElem?_range h]
  rfl

theorem segmentsUpTo_binarySearch (n j : Nat) (h : j < n) :
    binarySearch (segmentsUpTo n) j ListingItem.SegmentItem
      = some (SearchResult.found j) := by
  have hb : ∀ x ∈ segmentsUpTo n, x.type < 2147483648 := by
    intro x hx
    have := segmentsUpTo_kinds n x hx
    simp only [IsKind, ListingItem.SegmentItem, ListingItem.InstructionItem] at this
    omega
  exact binarySearch_found_of_getElem? (segmentsUpTo_sorted n) hb
    (segmentsUpTo_getElem? n j h)

theorem segmentsUpTo_indexOf (n j : Nat) (h : j < n) :
    indexOf (segmentsUpTo n) ⟨j, ListingItem.SegmentItem⟩
      = some (IndexResult.index (toInt32 (j : Int))) := by
  rw [indexOf, segmentsUpTo_binarySearch n j h]

/-! ## The claims -/

theorem isKind_bound {xs : List ListingItem} (hk : ∀ x ∈ xs, IsKind x.type) :
    ∀ x ∈ xs, x.type < 2147483648 := by
  intro x hx
  have := hk x hx
  simp only [IsKind, ListingItem.SegmentItem, ListingItem.InstructionItem] at this
  omega

theorem mem_insertAt {xs : List ListingItem} {p : Nat} {val x : ListingItem}
    (hx : x ∈ insertAt xs p val) : x = val ∨ x ∈ xs := by
  simp only [insertAt, List.mem_append, List.mem_cons] at hx
  rcases hx with h | h | h
  · exact Or.inr (List.mem_of_mem_take h)
  · exact Or.inl h
  · exact Or.inr (List.mem_of_mem_drop h)

/-- C1, amended: in a container strictly increasing under `ListingComparator` whose
item types are among the five kinds, searching for the address and type of the item
at an index `j` in range returns the position `j` (not `end()`); `indexOf` on that
item returns `j` narrowed to `int`, which is `j` itself whenever `j < 2^31`. -/
theorem binarySearch_finds_every_item (xs : List ListingItem) (hs : StrictSorted xs)
    (hk : ∀ x ∈ xs, IsKind x.type) (j : Nat) (hj : j < xs.length) :
    binarySearch xs xs[j].address xs[j].type = some (SearchResult.found j) ∧
    indexOf xs xs[j] = some (IndexResult.index (toInt32 (j : Int))) ∧
    (j < 2147483648 → indexOf xs xs[j] = some (IndexResult.index (j : Int))) := by
  have h := binarySearch_found hs (isKind_bound hk) hj
  have hidx : indexOf xs xs[j] = some (IndexResult.index (toInt32 (j : Int))) := by
    rw [indexOf, h]
  exact ⟨h, hidx, fun hlt => by rw [hidx, toInt32_of_lt hlt]⟩

/-- Witness of C1 on the sample container, at index 2 (`Symbol@0x1000`). -/
theorem binarySearch_finds_every_item_witness :
    StrictSorted sampleListing ∧ (∀ x ∈ sampleListing, IsKind x.type) ∧
    binarySearch sampleListing 0x1000 ListingItem.SymbolItem
      = some (SearchResult.found 2) ∧
    indexOf sampleListing ⟨0x1000, ListingItem.SymbolItem⟩
      = some (IndexResult.index 2) :=
  ⟨by decide, by decide,
    (binarySearch_finds_every_item sampleListing (by decide) (by decide) 2
      (by decide)).1,
    (binarySearch_finds_every_item sampleListing (by decide) (by decide) 2
      (by decide)).2.2 (by decide)⟩

/-- C1 as stated fails on the code: the container of the `2^31 + 1` segment items at
the addresses `0 .. 2^31` is sorted and of the five kinds, its item at index `2^31`
is `Segment@2^31`, the search returns that position, and `indexOf` on that item
returns `-2^31`, not `2^31`. -/
theorem indexOf_narrows_large_index :
    StrictSorted (segmentsUpTo 2147483649) ∧
    (∀ x ∈ segmentsUpTo 2147483649, IsKind x.type) ∧
    (segmentsUpTo 2147483649)[2147483648]?
      = some ⟨2147483648, ListingItem.SegmentItem⟩ ∧
    binarySearch (segmentsUpTo 2147483649) 2147483648 ListingItem.SegmentItem
      = some (SearchResult.found 2147483648) ∧
    indexOf (segmentsUpTo 2147483649) ⟨2147483648, ListingItem.SegmentItem⟩
      = some (IndexResult.index (-2147483648)) ∧
    indexOf (segmentsUpTo 2147483649) ⟨2147483648, ListingItem.SegmentItem⟩
      ≠ some (IndexResult.index 2147483648) := by
  have hlt : 2147483648 < 2147483649 := by omega
  have hidx := segmentsUpTo_indexOf 2147483649 2147483648 hlt
  have hnarrow : toInt32 ((2147483648 : Nat) : Int) = -2147483648 := by
    unfold toInt32
    omega
  rw [hnarrow] at hidx
  refine ⟨segmentsUpTo_sorted _, segmentsUpTo_kinds _, segmentsUpTo_getElem? _ _ hlt,
    segmentsUpTo_binarySearch _ _ hlt, hidx, ?_⟩
  rw [hidx]
  intro h
  have h2 : (-2147483648 : Int) = 2147483648 :=
    IndexResult.index.inj (Option.some.inj h)
  omega

/-- C2 on the code: the container `[Segment@0x1000]` is non-empty and sorted, has an
item at `0x1000` and none with the key `Symbol@0x1000`; the search for
`Symbol@0x1000` does not return `end()`: the scan steps from the last element of the
run to `end()` and the loop condition of `_adjustSearch` dereferences it. -/
theorem binarySearch_absent_kind_reads_end :
    singleSegment ≠ [] ∧ StrictSorted singleSegment ∧
    (∃ x ∈ singleSegment, x.address = 0x1000) ∧
    (∀ x ∈ singleSegment, ¬ (x.address = 0x1000 ∧ x.type = ListingItem.SymbolItem)) ∧
    binarySearch singleSegment 0x1000 ListingItem.SymbolItem
      = some (SearchResult.invalidRead singleSegment.length) ∧
    binarySearch singleSegment 0x1000 ListingItem.SymbolItem
      ≠ some SearchResult.notFound := by
  decide

/-- C3 on the code: the container `[Segment@0x1000]` is sorted and has no item at
`0x2000`; the search for `0x2000` does not return `end()` for any type, and `indexOf`
does not return `-1`: the bisection moves `thebegin` to `end()` and dereferences it as
the middle element. -/
theorem binarySearch_absent_address_reads_end :
    StrictSorted singleSegment ∧ (∀ x ∈ singleSegment, x.address ≠ 0x2000) ∧
    (∀ type : Nat, binarySearch singleSegment 0x2000 type
      = some (SearchResult.invalidRead singleSegment.length)) ∧
    (∀ type : Nat, indexOf singleSegment ⟨0x2000, type⟩
      = some (IndexResult.invalidRead singleSegment.length)) ∧
    indexOf singleSegment ⟨0x2000, ListingItem.SegmentItem⟩
      ≠ some (IndexResult.index (-1)) := by
  refine ⟨by decide, by decide, fun _ => rfl, fun _ => rfl, by decide⟩

/-- C4: inserting an item whose key is not in a sorted container at the position
returned by `insertionPoint` gives a container that is again strictly increasing
under `ListingComparator`, has one more element, holds the item at that position, and
is the old container once that position is erased. -/
theorem insert_at_insertionPoint_sorted (xs : List ListingItem) (hs : StrictSorted xs)
    (val : ListingItem)
    (habs : ∀ x ∈ xs, ¬ (x.address = val.address ∧ x.type = val.type)) :
    StrictSorted (insertAt xs (insertionPoint xs val) val) ∧
    (insertAt xs (insertionPoint xs val) val).length = xs.length + 1 ∧
    (insertAt xs (insertionPoint xs val) val)[insertionPoint xs val]? = some val ∧
    (insertAt xs (insertionPoint xs val) val).eraseIdx (insertionPoint xs val) = xs := by
  have hp := (insertionPoint_spec hs val).1
  exact ⟨insertAt_sorted hs val habs, insertAt_length xs _ val hp,
    insertAt_getElem?_self xs _ val hp, insertAt_eraseIdx xs _ val hp⟩

/-- Witness of C4: `Prologue@0x1000` goes into the sample container at position 2. -/
theorem insert_at_insertionPoint_sorted_witness :
    StrictSorted sampleListing ∧
    insertionPoint sampleListing ⟨0x1000, ListingItem.PrologueItem⟩ = 2 ∧
    StrictSorted (insertAt sampleListing 2 ⟨0x1000, ListingItem.PrologueItem⟩) ∧
    (insertAt sampleListing 2 ⟨0x1000, ListingItem.PrologueItem⟩).length = 5 :=
  ⟨by decide, by decide,
    (insert_at_insertionPoint_sorted sampleListing (by decide)
      ⟨0x1000, ListingItem.PrologueItem⟩ (by decide)).1,
    (insert_at_insertionPoint_sorted sampleListing (by decide)
      ⟨0x1000, ListingItem.PrologueItem⟩ (by decide)).2.1⟩

/-- C5: in a sorted container of the five kinds, after an item of one of the five
kinds whose key was absent is inserted at the position `p` returned by
`insertionPoint`, the search for its address and type returns `p`, and the item at
`p` is the inserted one. -/
theorem insert_then_find (xs : List ListingItem) (hs : StrictSorted xs)
    (hk : ∀ x ∈ xs, IsKind x.type) (a k : Nat) (hkind : IsKind k)
    (habs : ∀ x ∈ xs, ¬ (x.address = a ∧ x.type = k)) :
    binarySearch (insertAt xs (insertionPoint xs ⟨a, k⟩) ⟨a, k⟩) a k
      = some (SearchResult.found (insertionPoint xs ⟨a, k⟩)) ∧
    (insertAt xs (insertionPoint xs ⟨a, k⟩) ⟨a, k⟩)[insertionPoint xs ⟨a, k⟩]?
      = some ⟨a, k⟩ := by
  have hp := (insertionPoint_spec hs ⟨a, k⟩).1
  have hsorted := insertAt_sorted hs ⟨a, k⟩ habs
  have hget := insertAt_getElem?_self xs (insertionPoint xs ⟨a, k⟩) ⟨a, k⟩ hp
  have hlen := insertAt_length xs (insertionPoint xs ⟨a, k⟩) ⟨a, k⟩ hp
  have hkinds : ∀ x ∈ insertAt xs (insertionPoint xs ⟨a, k⟩) ⟨a, k⟩, IsKind x.type := by
    intro x hx
    rcases mem_insertAt hx with h | h
    · subst h; exact hkind
    · exact hk x h
  have hlt : insertionPoint xs ⟨a, k⟩
      < (insertAt xs (insertionPoint xs ⟨a, k⟩) ⟨a, k⟩).length := by omega
  have hfound := binarySearch_found hsorted (isKind_bound hkinds) hlt
  have hitem : (insertAt xs (insertionPoint xs ⟨a, k⟩) ⟨a, k⟩)[insertionPoint xs ⟨a, k⟩]
      = ⟨a, k⟩ := by
    rw [List.getElem?_eq_getElem hlt] at hget
    exact Option.some.inj hget
  rw [hitem] at hfound
  exact ⟨hfound, hget⟩

/-- Witness of C5: `Prologue@0x1000` inserted into the sample container is found at
position 2. -/
theorem insert_then_find_witness :
    StrictSorted sampleListing ∧ (∀ x ∈ sampleListing, IsKind x.type) ∧
    IsKind ListingItem.PrologueItem ∧
    insertionPoint sampleListing ⟨0x1000, ListingItem.PrologueItem⟩ = 2 ∧
    binarySearch (insertAt sampleListing
        (insertionPoint sampleListing ⟨0x1000, ListingItem.PrologueItem⟩)
        ⟨0x1000, ListingItem.PrologueItem⟩) 0x1000 ListingItem.PrologueItem
      = some (SearchResult.found
        (insertionPoint sampleListing ⟨0x1000, ListingItem.PrologueItem⟩)) :=
  ⟨by decide, by decide, by decide, by decide,
    (insert_then_find sampleListing (by decide) (by decide) 0x1000
      ListingItem.PrologueItem (by decide) (by decide)).1⟩

/-- C6: `ListingComparator` is the strict lexicographic order on (address, type); the
enumerators give `SegmentItem < FunctionItem < PrologueItem < SymbolItem <
InstructionItem`, so the comparator orders the five kinds that way at one address;
and for any two items exactly one of `comparator(x, y)`, `comparator(y, x)` and
equality of the keys holds. -/
theorem listingComparator_lexicographic :
    (∀ x y : ListingItem, ListingComparator x y = true ↔
      x.address < y.address ∨ (x.address = y.address ∧ x.type < y.type)) ∧
    (ListingItem.SegmentItem < ListingItem.FunctionItem ∧
      ListingItem.FunctionItem < ListingItem.PrologueItem ∧
      ListingItem.PrologueItem < ListingItem.SymbolItem ∧
      ListingItem.SymbolItem < ListingItem.InstructionItem) ∧
    (∀ a : Nat,
      ListingComparator ⟨a, ListingItem.SegmentItem⟩ ⟨a, ListingItem.FunctionItem⟩ = true ∧
      ListingComparator ⟨a, ListingItem.FunctionItem⟩ ⟨a, ListingItem.PrologueItem⟩ = true ∧
      ListingComparator ⟨a, ListingItem.PrologueItem⟩ ⟨a, ListingItem.SymbolItem⟩ = true ∧
      ListingComparator ⟨a, ListingItem.SymbolItem⟩ ⟨a, ListingItem.InstructionItem⟩
        = true) ∧
    (∀ x y : ListingItem,
      (ListingComparator x y = true ∧ ListingComparator y x = false ∧
        ¬ (x.address = y.address ∧ x.type = y.type)) ∨
      (ListingComparator x y = false ∧ ListingComparator y x = true ∧
        ¬ (x.address = y.address ∧ x.type = y.type)) ∨
      (ListingComparator x y = false ∧ ListingComparator y x = false ∧
        (x.address = y.address ∧ x.type = y.type))) := by
  refine ⟨comparator_iff, by decide, ?_, ?_⟩
  · intro a
    simp [comparator_iff, ListingItem.SegmentItem, ListingItem.FunctionItem,
      ListingItem.PrologueItem, ListingItem.SymbolItem, ListingItem.InstructionItem]
  · intro x y
    have hxy := comparator_iff x y
    have hyx := comparator_iff y x
    cases h1 : ListingComparator x y <;> cases h2 : ListingComparator y x <;>
      simp only [h1, h2, true_iff, Bool.false_eq_true, false_iff] at hxy hyx <;>
      simp <;> omega

/-- C7: for every container, sorted or not, and every address and type, the two loops
of `binarySearch` and `_adjustSearch` finish: the search has a result within
`size + 2` iterations of each loop, and a larger iteration budget gives the same
result. -/
theorem binarySearch_terminates (xs : List ListingItem) (address type : Nat) :
    ∃ r : SearchResult, binarySearch xs address type = some r ∧
      ∀ fuel : Nat, xs.length + 2 ≤ fuel →
        binarySearchFuel fuel xs address type = some r := by
  obtain ⟨r, hr⟩ := binarySearchFuel_stable xs address type
  exact ⟨r, hr (xs.length + 2) (le_refl _), hr⟩

/-- C9: in a sorted container, `insertionPoint` called with the key of the item at
index `j` returns `j`; and called with a key that is absent, the item at the returned
position, if there is one, has a strictly greater key. -/
theorem insertionPoint_detects_duplicate (xs : List ListingItem) (hs : StrictSorted xs) :
    (∀ (j : Nat) (hj : j < xs.length),
      insertionPoint xs ⟨xs[j].address, xs[j].type⟩ = j) ∧
    (∀ val : ListingItem,
      (∀ x ∈ xs, ¬ (x.address = val.address ∧ x.type = val.type)) →
      ∀ hp : insertionPoint xs val < xs.length,
        ListingComparator val xs[insertionPoint xs val] = true) := by
  constructor
  · intro j hj
    exact insertionPoint_of_mem hs hj _ rfl rfl
  · intro val habs hp
    have h := (insertionPoint_spec hs val).2.2 _ hp (le_refl _)
    exact comparator_of_not h (habs _ (List.getElem_mem hp))

/-- Witness of C9: in the sample container the key `Symbol@0x1000` of index 2 has
insertion point 2. -/
theorem insertionPoint_detects_duplicate_witness :
    StrictSorted sampleListing ∧
    insertionPoint sampleListing ⟨0x1000, ListingItem.SymbolItem⟩ = 2 :=
  ⟨by decide,
    (insertionPoint_detects_duplicate sampleListing (by decide)).1 2 (by decide)⟩

/-- C10 on the code: on the non-empty sorted container
`[Segment@0x1000, Function@0x1000]` the search dereferences `end()` twice over: in the
loop condition of `_adjustSearch` when `Instruction@0x1000` is searched, and as the
middle element of `binarySearch` when address `0x3000` is searched. -/
theorem binarySearch_dereferences_end :
    segmentAndFunction ≠ [] ∧ StrictSorted segmentAndFunction ∧
    readAt segmentAndFunction (segmentAndFunction.length : Int) = none ∧
    binarySearch segmentAndFunction 0x1000 ListingItem.InstructionItem
      = some (SearchResult.invalidRead segmentAndFunction.length) ∧
    binarySearch segmentAndFunction 0x3000 ListingItem.SegmentItem
      = some (SearchResult.invalidRead segmentAndFunction.length) := by
  decide

end Listing

end REDasm
